import Mathlib

/-!
Verification of the dicompare-web metadata scripts.

The development shallowly embeds the Python sources under `src/`:
- `src/src/scripts/generate_template.py` (`make_hashable`, `fetch_unique_rows`,
  `get_constant_fields`),
- `src/src/scripts/mapping_output.py` (series labelling, session-map
  serialization, module-reference positional mapping),
- `src/src/scripts/compliance_output.py` (session-map parsing),
- `src/scripts/process_example_dicoms.py` (`clean_for_json`).

Python's dynamically typed field values are embedded as the closed variant
`PyVal`.  Fallible Python code (code that can raise) is embedded with
`Option`: `Option.none` stands for an uncaught exception.  Machine floats
are restricted to the sentinels the claims are about (`nan`, signed
infinities) plus integers; finite non-integral floats play no role in any
claim.  Python `==` (which makes `nan` unequal to itself) is embedded as
`pyEq`, separately from Lean's structural equality.  `pyEq` models `==` on
distinct objects: CPython's identity shortcut inside container comparisons
is not modelled, and Python's order-insensitive `dict` equality is modelled
pairwise in order — both cases are unreachable in the pipelines proved
about below, since `make_hashable` outputs never contain dicts or lists.
-/

/-- The universe of Python metadata values handled by the scripts:
None, float("nan"), signed infinities, ints, strings, booleans, lists,
string-keyed dicts, sets and tuples.  (numpy arrays, which
`clean_for_json` converts with `tolist()`, are outside the modelled
universe; they never reach the functions the claims are about.) -/
inductive PyVal where
  | none : PyVal
  | nan : PyVal
  | inf (neg : Bool) : PyVal
  | int (n : Int) : PyVal
  | str (s : String) : PyVal
  | bool (b : Bool) : PyVal
  | list (xs : List PyVal) : PyVal
  | dict (kvs : List (String × PyVal)) : PyVal
  | set (xs : List PyVal) : PyVal
  | tuple (xs : List PyVal) : PyVal

/-- Four-digit lowercase hex rendering used for `\uXXXX` escapes. -/
def hexDigit (n : Nat) : Char :=
  if n < 10 then Char.ofNat (48 + n) else Char.ofNat (87 + n)

/-- Escaping of one character as `json.dumps` does it (default `ensure_ascii=True`). -/
def jsonEscapeChar (c : Char) : String :=
  if c = '"' then "\\\""
  else if c = '\\' then "\\\\"
  else if c = '\n' then "\\n"
  else if c = '\t' then "\\t"
  else if c = '\r' then "\\r"
  else if c.toNat < 32 ∨ c.toNat > 126 then
    let n := c.toNat
    String.mk ['\\', 'u', hexDigit (n / 4096 % 16), hexDigit (n / 256 % 16),
               hexDigit (n / 16 % 16), hexDigit (n % 16)]
  else String.singleton c

/-- Rendering of a string literal as `json.dumps` does it. -/
def jsonQuote (s : String) : String :=
  "\"" ++ String.join (s.toList.map jsonEscapeChar) ++ "\""

/-- Code-point lexicographic `<=` on char lists (Python string comparison). -/
def charListLe : List Char → List Char → Bool
  | [], _ => true
  | _ :: _, [] => false
  | a :: as_, b :: bs =>
    if a.toNat < b.toNat then true
    else if b.toNat < a.toNat then false
    else charListLe as_ bs

/-- Python `<=` on strings, kernel-computable. -/
def strLe (a b : String) : Bool := charListLe a.toList b.toList

/-- Insert into a `le`-sorted list, keeping earlier-inserted equal elements
first (stable, like the library sorts the Python code relies on). -/
def insertSorted {α : Type} (le : α → α → Bool) (a : α) : List α → List α
  | [] => [a]
  | b :: bs => if le a b then a :: b :: bs else b :: insertSorted le a bs

/-- Stable insertion sort.  Used to model `sort_keys=True` in `json.dumps`,
pandas `sort_values`, and the sorted iteration order of pandas `groupby`;
structural recursion keeps every use kernel-computable. -/
def sortBy {α : Type} (le : α → α → Bool) : List α → List α
  | [] => []
  | a :: as_ => insertSorted le a (sortBy le as_)

theorem insertSorted_perm {α : Type} (le : α → α → Bool) (a : α) (l : List α) :
    (insertSorted le a l).Perm (a :: l) := by
  induction l with
  | nil => simp [insertSorted]
  | cons b bs ih =>
    simp only [insertSorted]
    by_cases h : le a b = true
    · simp [h]
    · simp only [h, if_false]
      exact ((ih.cons b).trans (List.Perm.swap a b bs))

theorem sortBy_perm {α : Type} (le : α → α → Bool) (l : List α) :
    (sortBy le l).Perm l := by
  induction l with
  | nil => simp [sortBy]
  | cons a as_ ih =>
    exact (insertSorted_perm le a (sortBy le as_)).trans (ih.cons a)

theorem mem_sortBy {α : Type} {le : α → α → Bool} {a : α} {l : List α} :
    a ∈ sortBy le l ↔ a ∈ l :=
  (sortBy_perm le l).mem_iff

theorem mem_insertSorted {α : Type} {le : α → α → Bool} {z a : α} {l : List α} :
    z ∈ insertSorted le a l ↔ z = a ∨ z ∈ l := by
  rw [(insertSorted_perm le a l).mem_iff, List.mem_cons]

theorem insertSorted_sorted {α : Type} {le : α → α → Bool}
    (htot : ∀ x y, le x y = true ∨ le y x = true)
    (htrans : ∀ x y z, le x y = true → le y z = true → le x z = true)
    (a : α) {l : List α}
    (hl : l.Pairwise (fun x y => le x y = true)) :
    (insertSorted le a l).Pairwise (fun x y => le x y = true) := by
  induction l with
  | nil => simp [insertSorted]
  | cons b bs ih =>
    rcases hl with _ | ⟨hb, hbs⟩
    simp only [insertSorted]
    by_cases h : le a b = true
    · simp only [h, if_true]
      refine List.Pairwise.cons ?_ (List.Pairwise.cons hb hbs)
      intro z hz
      rcases List.mem_cons.mp hz with rfl | hz
      · exact h
      · exact htrans a b z h (hb z hz)
    · simp only [h, if_false]
      refine List.Pairwise.cons ?_ (ih hbs)
      intro z hz
      rcases mem_insertSorted.mp hz with rfl | hz
      · rcases htot z b with h' | h'
        · exact absurd h' h
        · exact h'
      · exact hb z hz

/-- Sortedness of `sortBy` for a total transitive comparator. -/
theorem sortBy_sorted {α : Type} {le : α → α → Bool}
    (htot : ∀ x y, le x y = true ∨ le y x = true)
    (htrans : ∀ x y z, le x y = true → le y z = true → le x z = true)
    (l : List α) :
    (sortBy le l).Pairwise (fun x y => le x y = true) := by
  induction l with
  | nil => simp [sortBy]
  | cons a as_ ih => exact insertSorted_sorted htot htrans a ih

mutual

/-- Embedding of `json.dumps(value, sort_keys=True)` with CPython's default
separators `", "` and `": "`.  `Option.none` is the `TypeError` raised on a
value (a Python `set`) that `json` cannot serialize.  NaN and the infinities
serialize to `NaN` / `Infinity` / `-Infinity` as in CPython. -/
def jsonStr : PyVal → Option String
  | .none => some "null"
  | .nan => some "NaN"
  | .inf true => some "-Infinity"
  | .inf false => some "Infinity"
  | .int n => some (toString n)
  | .str s => some (jsonQuote s)
  | .bool true => some "true"
  | .bool false => some "false"
  | .list xs =>
    match jsonList xs with
    | some es => some ("[" ++ String.intercalate ", " es ++ "]")
    | Option.none => Option.none
  | .tuple xs =>
    match jsonList xs with
    | some es => some ("[" ++ String.intercalate ", " es ++ "]")
    | Option.none => Option.none
  | .dict kvs =>
    match jsonDict kvs with
    | some es =>
      let sorted := sortBy (fun a b => strLe a.1 b.1) es
      some ("\x7b" ++
        String.intercalate ", " (sorted.map (fun kv => jsonQuote kv.1 ++ ": " ++ kv.2)) ++
        "\x7d")
    | Option.none => Option.none
  | .set _ => Option.none

/-- Encode the elements of a list/tuple, propagating serialization failure. -/
def jsonList : List PyVal → Option (List String)
  | [] => some []
  | x :: xs =>
    match jsonStr x, jsonList xs with
    | some e, some es => some (e :: es)
    | _, _ => Option.none

/-- Encode dict entries to `(key, encoded value)` pairs, propagating failure.
Key sorting (`sort_keys=True`) happens afterwards in `jsonStr` and only
looks at the keys, so encoding before sorting is equivalent. -/
def jsonDict : List (String × PyVal) → Option (List (String × String))
  | [] => some []
  | (k, v) :: kvs =>
    match jsonStr v, jsonDict kvs with
    | some e, some es => some ((k, e) :: es)
    | _, _ => Option.none

end

mutual

/-- Embedding of `make_hashable` (generate_template.py lines 5-11):
lists/dicts become their canonical sorted-key JSON string, sets and tuples
become tuples of recursively converted elements, and every other value
(including NaN and the infinities) is returned unchanged.  `Option.none`
is the `TypeError` that `json.dumps` raises on a set nested inside a
list/dict. -/
def make_hashable : PyVal → Option PyVal
  | .list xs =>
    match jsonStr (.list xs) with
    | some s => some (.str s)
    | Option.none => Option.none
  | .dict kvs =>
    match jsonStr (.dict kvs) with
    | some s => some (.str s)
    | Option.none => Option.none
  | .set xs =>
    match mhList xs with
    | some ws => some (.tuple ws)
    | Option.none => Option.none
  | .tuple xs =>
    match mhList xs with
    | some ws => some (.tuple ws)
    | Option.none => Option.none
  | v => some v

/-- Elementwise conversion `tuple(make_hashable(v) for v in value)`. -/
def mhList : List PyVal → Option (List PyVal)
  | [] => some []
  | x :: xs =>
    match make_hashable x, mhList xs with
    | some w, some ws => some (w :: ws)
    | _, _ => Option.none

end

mutual

/-- Python `==` on embedded values (for distinct objects): `nan` compares
unequal to everything including itself, `True`/`False` equal `1`/`0`,
equal-sign infinities are equal, containers compare elementwise, and
values of unrelated types compare unequal. -/
def pyEq : PyVal → PyVal → Bool
  | .nan, _ => false
  | _, .nan => false
  | .none, .none => true
  | .inf a, .inf b => a == b
  | .int a, .int b => a == b
  | .bool a, .bool b => a == b
  | .bool a, .int n => if a then n == 1 else n == 0
  | .int n, .bool a => if a then n == 1 else n == 0
  | .str a, .str b => a == b
  | .list a, .list b => pyEqList a b
  | .tuple a, .tuple b => pyEqList a b
  | .set a, .set b => pyEqList a b
  | .dict a, .dict b => pyEqDict a b
  | _, _ => false

/-- Elementwise Python `==` on sequences. -/
def pyEqList : List PyVal → List PyVal → Bool
  | [], [] => true
  | a :: as_, b :: bs => pyEq a b && pyEqList as_ bs
  | _, _ => false

/-- Pairwise Python `==` on dict entries (see the header note: real Python
dict equality is key-based and order-insensitive; dicts never appear in the
comparisons performed by the embedded pipelines). -/
def pyEqDict : List (String × PyVal) → List (String × PyVal) → Bool
  | [], [] => true
  | (k, v) :: as_, (k2, v2) :: bs => k == k2 && pyEq v v2 && pyEqDict as_ bs
  | _, _ => false

end

mutual

/-- Embedding of `clean_for_json` (process_example_dicoms.py lines 108-127):
dicts and lists are cleaned recursively; NaN and None (via `pd.isna(obj) or
obj is None`) and the infinities (via the `isnan`/`isinf` float branches)
all become None; every other value is returned unchanged.  Total: the
function never raises on the modelled universe. -/
def clean_for_json : PyVal → PyVal
  | .dict kvs => .dict (cleanDict kvs)
  | .list xs => .list (cleanList xs)
  | .nan => .none
  | .none => .none
  | .inf _ => .none
  | v => v

/-- Recursive cleaning of list elements. -/
def cleanList : List PyVal → List PyVal
  | [] => []
  | x :: xs => clean_for_json x :: cleanList xs

/-- Recursive cleaning of dict values. -/
def cleanDict : List (String × PyVal) → List (String × PyVal)
  | [] => []
  | (k, v) :: kvs => (k, clean_for_json v) :: cleanDict kvs

end

/-- Sized mutual induction behind idempotence of `make_hashable`: whenever
the conversion succeeds, its output is a fixed point (both for single
values and elementwise for lists of values). -/
theorem mh_idem_sized : ∀ n : Nat,
    (∀ v w : PyVal, sizeOf v ≤ n → make_hashable v = some w → make_hashable w = some w) ∧
    (∀ xs ws : List PyVal, sizeOf xs ≤ n → mhList xs = some ws → mhList ws = some ws) := by
  intro n
  induction n using Nat.strong_induction_on with
  | _ n ih =>
    constructor
    · intro v w hv h
      cases v with
      | none => simp only [make_hashable, Option.some.injEq] at h; subst h; rfl
      | nan => simp only [make_hashable, Option.some.injEq] at h; subst h; rfl
      | inf b => simp only [make_hashable, Option.some.injEq] at h; subst h; rfl
      | int m => simp only [make_hashable, Option.some.injEq] at h; subst h; rfl
      | str s => simp only [make_hashable, Option.some.injEq] at h; subst h; rfl
      | bool b => simp only [make_hashable, Option.some.injEq] at h; subst h; rfl
      | list xs =>
        simp only [make_hashable] at h
        cases hj : jsonStr (.list xs) with
        | none => rw [hj] at h; exact absurd h (by simp)
        | some s =>
          rw [hj] at h
          simp only [Option.some.injEq] at h
          subst h; rfl
      | dict kvs =>
        simp only [make_hashable] at h
        cases hj : jsonStr (.dict kvs) with
        | none => rw [hj] at h; exact absurd h (by simp)
        | some s =>
          rw [hj] at h
          simp only [Option.some.injEq] at h
          subst h; rfl
      | set xs =>
        simp only [make_hashable] at h
        cases hm : mhList xs with
        | none => rw [hm] at h; exact absurd h (by simp)
        | some ws' =>
          rw [hm] at h
          simp only [Option.some.injEq] at h
          subst h
          have hxs : sizeOf xs < n := by
            have := PyVal.set.sizeOf_spec xs; omega
          have hfix := (ih (sizeOf xs) hxs).2 xs ws' (Nat.le_refl _) hm
          simp only [make_hashable, hfix]
      | tuple xs =>
        simp only [make_hashable] at h
        cases hm : mhList xs with
        | none => rw [hm] at h; exact absurd h (by simp)
        | some ws' =>
          rw [hm] at h
          simp only [Option.some.injEq] at h
          subst h
          have hxs : sizeOf xs < n := by
            have := PyVal.tuple.sizeOf_spec xs; omega
          have hfix := (ih (sizeOf xs) hxs).2 xs ws' (Nat.le_refl _) hm
          simp only [make_hashable, hfix]
    · intro xs ws hxs h
      cases xs with
      | nil =>
        simp only [mhList, Option.some.injEq] at h
        subst h; rfl
      | cons x rest =>
        simp only [mhList] at h
        cases hx : make_hashable x with
        | none => rw [hx] at h; exact absurd h (by simp)
        | some w' =>
          cases hrest : mhList rest with
          | none => rw [hx, hrest] at h; exact absurd h (by simp)
          | some ws' =>
            rw [hx, hrest] at h
            simp only [Option.some.injEq] at h
            subst h
            have hszx : sizeOf x < n := by
              have := List.cons.sizeOf_spec x rest; omega
            have hszr : sizeOf rest < n := by
              have := List.cons.sizeOf_spec x rest; omega
            have h1 := (ih (sizeOf x) hszx).1 x w' (Nat.le_refl _) hx
            have h2 := (ih (sizeOf rest) hszr).2 rest ws' (Nat.le_refl _) hrest
            simp only [mhList, h1, h2]

/-- C9 — Normalization is idempotent: whenever `make_hashable` produces an
output (it raises only on a set nested inside a JSON-serialized container),
applying `make_hashable` to that output returns it unchanged, so
normalizing twice equals normalizing once. -/
theorem make_hashable_idempotent (v w : PyVal) (h : make_hashable v = some w) :
    make_hashable w = some w :=
  (mh_idem_sized (sizeOf v)).1 v w (Nat.le_refl _) h

/-- Witness for C9 at a concrete input: a nested list normalizes to its
canonical JSON string, which is a fixed point of the normalizer. -/
theorem make_hashable_idempotent_witness :
    make_hashable (.str "[1, [2, 3]]") = some (.str "[1, [2, 3]]") :=
  make_hashable_idempotent (.list [.int 1, .list [.int 2, .int 3]]) (.str "[1, [2, 3]]") rfl

/-- C2 counterexample — the Value Normalizer `make_hashable` does NOT map
NaN to a canonical missing marker: it returns the NaN sentinel itself, and
two independently produced NaN sentinels compare unequal under Python `==`,
so their normalized outputs are not equal. -/
theorem normalization_nan_counterexample :
    make_hashable PyVal.nan = some PyVal.nan ∧ pyEq PyVal.nan PyVal.nan = false :=
  ⟨rfl, rfl⟩

/-- C2 (amended) — neither function raises on NaN/None/infinite inputs, but
only `clean_for_json` (process_example_dicoms.py) canonicalizes them to the
null marker; `make_hashable` (generate_template.py) passes NaN and the
infinities through unchanged, so missing numeric sentinels do not compare
equal after `make_hashable`. -/
theorem normalization_missing_sentinels :
    make_hashable PyVal.nan = some PyVal.nan ∧
    (∀ b : Bool, make_hashable (PyVal.inf b) = some (PyVal.inf b)) ∧
    make_hashable PyVal.none = some PyVal.none ∧
    clean_for_json PyVal.nan = PyVal.none ∧
    (∀ b : Bool, clean_for_json (PyVal.inf b) = PyVal.none) ∧
    clean_for_json PyVal.none = PyVal.none ∧
    pyEq PyVal.nan PyVal.nan = false ∧
    pyEq (clean_for_json PyVal.nan) (clean_for_json PyVal.nan) = true :=
  ⟨rfl, fun b => by cases b <;> rfl, rfl, rfl, fun b => by cases b <;> rfl, rfl, rfl, rfl⟩

/-- A metadata row: a Python dict from field name to value. -/
abbrev Row := List (String × PyVal)

/-- Python `row.get(field, None)`. -/
def rowGet (r : Row) (f : String) : PyVal :=
  match r.find? (fun kv => kv.1 == f) with
  | some kv => kv.2
  | Option.none => PyVal.none

/-- The first row's raw value, `first_value = rows[0].get(field, None)`. -/
def firstVal (rows : List Row) (f : String) : PyVal := rowGet (rows.headD []) f

/-- Embedding of `all(make_hashable(row.get(field, None)) == make_hashable(first_value)
for row in rows)`: Python's `all` is lazy, so once a row compares unequal
the remaining rows are not normalized at all (and cannot raise).
`Option.none` is an uncaught exception from `make_hashable`. -/
def allConst (rows : List Row) (f : String) (fv : PyVal) : Option Bool :=
  match rows with
  | [] => some true
  | r :: rs =>
    (make_hashable (rowGet r f)).bind (fun a =>
      (make_hashable fv).bind (fun b =>
        if pyEq a b then allConst rs f fv else some false))

/-- The `is_constant` test of `get_constant_fields` for one field. -/
def constP (rows : List Row) (f : String) : Option Bool :=
  allConst rows f (firstVal rows f)

/-- Python dict assignment `constant_fields[field] = first_value` on an
insertion-ordered dict: overwrite in place if the key exists, else append. -/
def dictUpsert (d : List (String × PyVal)) (f : String) (v : PyVal) :
    List (String × PyVal) :=
  if d.any (fun kv => kv.1 == f) then
    d.map (fun kv => if kv.1 == f then (f, v) else kv)
  else d ++ [(f, v)]

/-- The `for field in fields` loop of `get_constant_fields`, threading the
`constant_fields` dict and the `variable_fields` list (from which
`list.remove` deletes the first occurrence of a constant field). -/
def gcfGo (rows : List Row) : List String → List (String × PyVal) → List String →
    Option (List (String × PyVal) × List String)
  | [], cf, vf => some (cf, vf)
  | f :: fs, cf, vf =>
    match constP rows f with
    | Option.none => Option.none
    | some c =>
      if c then gcfGo rows fs (dictUpsert cf f (firstVal rows f)) (vf.erase f)
      else gcfGo rows fs cf vf

/-- Embedding of `get_constant_fields` (generate_template.py lines 47-63):
`if not rows or not fields: return constant_fields, variable_fields` with
`variable_fields = fields.copy()`, then the per-field loop. -/
def get_constant_fields (rows : List Row) (fields : List String) :
    Option (List (String × PyVal) × List String) :=
  if rows.isEmpty || fields.isEmpty then some ([], fields)
  else gcfGo rows fields [] fields

/-- The claim's notion of a constant field, phrased from the spec: the
normalized value of every row succeeds and compares (Python-)equal to the
normalized value of the first row. -/
def constSpec (rows : List Row) (f : String) : Prop :=
  ∀ r ∈ rows, ∃ a b, make_hashable (rowGet r f) = some a ∧
    make_hashable (firstVal rows f) = some b ∧ pyEq a b = true

theorem allConst_eq_true_iff (rows : List Row) (f : String) (fv : PyVal) :
    allConst rows f fv = some true ↔
      ∀ r ∈ rows, ∃ a b, make_hashable (rowGet r f) = some a ∧
        make_hashable fv = some b ∧ pyEq a b = true := by
  induction rows with
  | nil => simp [allConst]
  | cons r rs ih =>
    constructor
    · intro h r' hr'
      have h' : allConst (r :: rs) f fv = some true := h
      simp only [allConst] at h'
      rcases hx : make_hashable (rowGet r f) with _ | a
      · rw [hx, Option.none_bind] at h'; cases h'
      · rcases hb : make_hashable fv with _ | b
        · rw [hx, hb, Option.some_bind, Option.none_bind] at h'; cases h'
        · rw [hx, hb, Option.some_bind, Option.some_bind] at h'
          by_cases hpe : pyEq a b = true
          · rw [if_pos hpe] at h'
            rcases List.mem_cons.mp hr' with rfl | hr'
            · exact ⟨a, b, hx, rfl, hpe⟩
            · obtain ⟨a', b', h1, h2, h3⟩ := (ih.mp h') r' hr'
              exact ⟨a', b', h1, by rw [← hb]; exact h2, h3⟩
          · rw [if_neg hpe] at h'
            simp at h'
    · intro hall
      obtain ⟨a, b, hx, hb, hpe⟩ := hall r (List.mem_cons_self r rs)
      have hrest : allConst rs f fv = some true :=
        ih.mpr (fun r' hr' => hall r' (List.mem_cons_of_mem r hr'))
      simp only [allConst]
      rw [hx, hb, Option.some_bind, Option.some_bind, if_pos hpe]
      exact hrest

theorem constP_eq_true_iff (rows : List Row) (f : String) :
    constP rows f = some true ↔ constSpec rows f :=
  allConst_eq_true_iff rows f (firstVal rows f)

theorem gcfGo_defined (rows : List Row) :
    ∀ (fs : List String) (cf : List (String × PyVal)) (vf : List String) p,
      gcfGo rows fs cf vf = some p → ∀ f ∈ fs, ∃ b, constP rows f = some b := by
  intro fs
  induction fs with
  | nil => intro _ _ _ _ f hf; cases hf
  | cons f0 fs ih =>
    intro cf vf p h f hf
    simp only [gcfGo] at h
    cases hc : constP rows f0 with
    | none => rw [hc] at h; cases h
    | some c =>
      rw [hc] at h
      rcases List.mem_cons.mp hf with rfl | hf
      · exact ⟨c, hc⟩
      · by_cases hcc : c = true
        · subst hcc; simp only [if_true] at h
          exact ih _ _ p h f hf
        · simp only [Bool.not_eq_true] at hcc; subst hcc
          simp only [Bool.false_eq_true, if_false] at h
          exact ih _ _ p h f hf

theorem dictUpsert_mem (cf : List (String × PyVal)) (f : String) (w : PyVal)
    (hcf : ∀ v', (f, v') ∈ cf → v' = w) (g : String) (v : PyVal) :
    (g, v) ∈ dictUpsert cf f w ↔ (g, v) ∈ cf ∨ (g = f ∧ v = w) := by
  unfold dictUpsert
  by_cases hany : cf.any (fun kv => kv.1 == f) = true
  · rw [if_pos hany, List.mem_map]
    constructor
    · rintro ⟨⟨k', v'⟩, hk'mem, hk'eq⟩
      by_cases hk : (k' == f) = true
      · rw [if_pos hk] at hk'eq
        obtain ⟨hg, hv⟩ := Prod.mk.injEq .. ▸ hk'eq
        exact Or.inr ⟨hg.symm, hv.symm⟩
      · rw [if_neg hk] at hk'eq
        exact Or.inl (hk'eq ▸ hk'mem)
    · rintro (hmem | ⟨hgf, hvw⟩)
      · by_cases hk : (g == f) = true
        · have hgf : g = f := eq_of_beq hk
          have hv : v = w := hcf v (hgf ▸ hmem)
          refine ⟨(g, v), hmem, ?_⟩
          dsimp only
          rw [if_pos hk, hgf, hv]
        · refine ⟨(g, v), hmem, ?_⟩
          dsimp only
          rw [if_neg hk]
      · rcases List.any_eq_true.mp hany with ⟨⟨k', v'⟩, hmem, hkeq⟩
        dsimp only at hkeq
        have hk : k' = f := eq_of_beq hkeq
        have hv : v' = w := hcf v' (hk ▸ hmem)
        refine ⟨(k', v'), hmem, ?_⟩
        dsimp only
        rw [if_pos hkeq, hgf, hvw]
  · rw [if_neg hany, List.mem_append, List.mem_singleton, Prod.mk.injEq]

theorem gcfGo_count (rows : List Row) :
    ∀ (fs : List String) (cf : List (String × PyVal)) (vf : List String) cf' vf',
      gcfGo rows fs cf vf = some (cf', vf') →
      ∀ g : String, vf'.count g =
        vf.count g - (if constP rows g = some true then fs.count g else 0) := by
  intro fs
  induction fs with
  | nil =>
    intro cf vf cf' vf' h g
    simp only [gcfGo, Option.some.injEq, Prod.mk.injEq] at h
    rw [← h.2]
    simp
  | cons f0 fs ih =>
    intro cf vf cf' vf' h g
    simp only [gcfGo] at h
    cases hc : constP rows f0 with
    | none => rw [hc] at h; cases h
    | some c =>
      rw [hc] at h
      cases c with
      | true =>
        simp only [if_true] at h
        have hrec := ih _ _ _ _ h g
        rw [List.count_erase] at hrec
        by_cases hg : g = f0
        · subst hg
          rw [if_pos hc] at hrec
          rw [if_pos hc, List.count_cons]
          rw [if_pos (beq_self_eq_true g)] at hrec
          rw [if_pos (beq_self_eq_true g)]
          omega
        · have h1 : ¬ ((f0 == g) = true) := fun hb => hg (eq_of_beq hb).symm
          have h2 : ¬ ((g == f0) = true) := fun hb => hg (eq_of_beq hb)
          rw [if_neg h1, Nat.sub_zero] at hrec
          rw [hrec, List.count_cons]
          first
          | rw [if_neg h2]
          | rw [if_neg h1]
          rw [Nat.add_zero]
      | false =>
        simp only [Bool.false_eq_true, if_false] at h
        have hrec := ih _ _ _ _ h g
        by_cases hg : g = f0
        · subst hg
          have hne : constP rows g ≠ some true := by rw [hc]; simp
          rw [if_neg hne] at hrec
          rw [if_neg hne]
          exact hrec
        · have h1 : ¬ ((f0 == g) = true) := fun hb => hg (eq_of_beq hb).symm
          have h2 : ¬ ((g == f0) = true) := fun hb => hg (eq_of_beq hb)
          by_cases hP : constP rows g = some true
          · rw [if_pos hP] at hrec
            rw [if_pos hP, List.count_cons]
            first
            | rw [if_neg h2]
            | rw [if_neg h1]
            rw [Nat.add_zero]
            exact hrec
          · rw [if_neg hP] at hrec
            rw [if_neg hP]
            exact hrec

theorem gcfGo_cf_mem (rows : List Row) :
    ∀ (fs : List String) (cf : List (String × PyVal)) (vf : List String) cf' vf',
      (∀ g v, (g, v) ∈ cf → constP rows g = some true ∧ v = firstVal rows g) →
      gcfGo rows fs cf vf = some (cf', vf') →
      ∀ g v, ((g, v) ∈ cf' ↔
        (g, v) ∈ cf ∨ (g ∈ fs ∧ constP rows g = some true ∧ v = firstVal rows g)) := by
  intro fs
  induction fs with
  | nil =>
    intro cf vf cf' vf' hcf h g v
    simp only [gcfGo, Option.some.injEq, Prod.mk.injEq] at h
    rw [← h.1]
    simp
  | cons f0 fs ih =>
    intro cf vf cf' vf' hcf h g v
    simp only [gcfGo] at h
    cases hc : constP rows f0 with
    | none => rw [hc] at h; cases h
    | some c =>
      rw [hc] at h
      cases c with
      | true =>
        simp only [if_true] at h
        have hupsert : ∀ v', (f0, v') ∈ cf → v' = firstVal rows f0 :=
          fun v' hv' => (hcf f0 v' hv').2
        have hinv : ∀ g' v', (g', v') ∈ dictUpsert cf f0 (firstVal rows f0) →
            constP rows g' = some true ∧ v' = firstVal rows g' := by
          intro g' v' hmem
          rcases (dictUpsert_mem cf f0 (firstVal rows f0) hupsert g' v').mp hmem with
            hmem' | ⟨rfl, rfl⟩
          · exact hcf g' v' hmem'
          · exact ⟨hc, rfl⟩
        rw [ih _ _ _ _ hinv h g v,
          dictUpsert_mem cf f0 (firstVal rows f0) hupsert g v]
        constructor
        · rintro ((hmem | ⟨rfl, rfl⟩) | ⟨hmem, htrue, rfl⟩)
          · exact Or.inl hmem
          · exact Or.inr ⟨List.mem_cons_self _ _, hc, rfl⟩
          · exact Or.inr ⟨List.mem_cons_of_mem _ hmem, htrue, rfl⟩
        · rintro (hmem | ⟨hmem, htrue, rfl⟩)
          · exact Or.inl (Or.inl hmem)
          · rcases List.mem_cons.mp hmem with rfl | hmem'
            · exact Or.inl (Or.inr ⟨rfl, rfl⟩)
            · exact Or.inr ⟨hmem', htrue, rfl⟩
      | false =>
        simp only [Bool.false_eq_true, if_false] at h
        rw [ih _ _ _ _ hcf h g v]
        constructor
        · rintro (hmem | ⟨hmem, htrue, rfl⟩)
          · exact Or.inl hmem
          · exact Or.inr ⟨List.mem_cons_of_mem _ hmem, htrue, rfl⟩
        · rintro (hmem | ⟨hmem, htrue, rfl⟩)
          · exact Or.inl hmem
          · rcases List.mem_cons.mp hmem with rfl | hmem'
            · rw [hc] at htrue; cases htrue
            · exact Or.inr ⟨hmem', htrue, rfl⟩

/-- C4 — In the non-empty case, `get_constant_fields` classifies a field
as constant exactly when the normalized value of every row compares
(Python-)equal to the normalized value of the first row; a constant
field's map entry holds the first row's raw, non-normalized value, and
every non-constant field appears in the variable list instead. -/
theorem get_constant_fields_classification (rows : List Row) (fields : List String)
    (cf : List (String × PyVal)) (vf : List String) (f : String)
    (hrows : rows ≠ []) (hfields : fields ≠ [])
    (h : get_constant_fields rows fields = some (cf, vf)) (hf : f ∈ fields) :
    (constSpec rows f → (f, firstVal rows f) ∈ cf ∧ f ∉ vf) ∧
    (¬ constSpec rows f → (∀ v, (f, v) ∉ cf) ∧ f ∈ vf) := by
  have hre : rows.isEmpty = false := by
    cases rows with
    | nil => exact absurd rfl hrows
    | cons _ _ => rfl
  have hfe : fields.isEmpty = false := by
    cases fields with
    | nil => exact absurd rfl hfields
    | cons _ _ => rfl
  simp only [get_constant_fields, hre, hfe, Bool.or_self, if_false] at h
  have hmem := gcfGo_cf_mem rows fields [] fields cf vf (by simp) h
  have hcount := gcfGo_count rows fields [] fields cf vf h
  constructor
  · intro hconst
    have hP : constP rows f = some true := (constP_eq_true_iff rows f).mpr hconst
    constructor
    · rw [hmem f (firstVal rows f)]
      exact Or.inr ⟨hf, hP, rfl⟩
    · have := hcount f
      rw [hP] at this
      simp only [if_true] at this
      have hzero : vf.count f = 0 := by omega
      exact List.count_eq_zero.mp hzero
  · intro hnconst
    obtain ⟨b, hb⟩ := gcfGo_defined rows fields [] fields (cf, vf) h f hf
    have hbf : b = false := by
      cases b with
      | false => rfl
      | true => exact absurd ((constP_eq_true_iff rows f).mp hb) hnconst
    subst hbf
    have hPne : constP rows f ≠ some true := by rw [hb]; simp
    constructor
    · intro v hv
      rcases (hmem f v).mp hv with hfalse | ⟨_, htrue, _⟩
      · cases hfalse
      · exact hPne htrue
    · have := hcount f
      rw [if_neg hPne, Nat.sub_zero] at this
      have hpos : 0 < fields.count f := List.count_pos_iff.mpr hf
      exact List.count_pos_iff.mp (by omega)

/-- Witness for C4: two rows agreeing on field "A"; the field is reported
constant with the first row's raw value and is absent from the variable
list. -/
theorem get_constant_fields_classification_witness :
    ("A", firstVal [[("A", PyVal.int 1)], [("A", PyVal.int 1)]] "A") ∈
      ([("A", PyVal.int 1)] : List (String × PyVal)) ∧
    "A" ∉ ([] : List String) :=
  (get_constant_fields_classification
    [[("A", PyVal.int 1)], [("A", PyVal.int 1)]] ["A"]
    [("A", PyVal.int 1)] [] "A"
    (by simp) (by simp) rfl (by simp)).1
    (by
      intro r hr
      rcases List.mem_cons.mp hr with rfl | hr
      · exact ⟨PyVal.int 1, PyVal.int 1, rfl, rfl, rfl⟩
      · rcases List.mem_cons.mp hr with rfl | hr
        · exact ⟨PyVal.int 1, PyVal.int 1, rfl, rfl, rfl⟩
        · cases hr)

/-- C5 — For any rows and field list on which `get_constant_fields`
returns, the constant-field keys together with the variable-field list are
exactly the original field set, and no field is in both. -/
theorem get_constant_fields_partition (rows : List Row) (fields : List String)
    (cf : List (String × PyVal)) (vf : List String)
    (h : get_constant_fields rows fields = some (cf, vf)) :
    (∀ f : String, ((∃ v, (f, v) ∈ cf) ∨ f ∈ vf) ↔ f ∈ fields) ∧
    (∀ f : String, ¬ ((∃ v, (f, v) ∈ cf) ∧ f ∈ vf)) := by
  simp only [get_constant_fields] at h
  by_cases hempty : (rows.isEmpty || fields.isEmpty) = true
  · rw [if_pos hempty] at h
    simp only [Option.some.injEq, Prod.mk.injEq] at h
    obtain ⟨hcf, hvf⟩ := h
    subst hcf; subst hvf
    constructor
    · intro f; simp
    · intro f; simp
  · rw [if_neg hempty] at h
    have hmem := gcfGo_cf_mem rows fields [] fields cf vf (by simp) h
    have hcount := gcfGo_count rows fields [] fields cf vf h
    have hkey : ∀ f : String, (∃ v, (f, v) ∈ cf) ↔
        (f ∈ fields ∧ constP rows f = some true) := by
      intro f
      constructor
      · rintro ⟨v, hv⟩
        rcases (hmem f v).mp hv with hfalse | ⟨hmem', htrue, _⟩
        · cases hfalse
        · exact ⟨hmem', htrue⟩
      · rintro ⟨hmem', htrue⟩
        exact ⟨firstVal rows f, (hmem f (firstVal rows f)).mpr
          (Or.inr ⟨hmem', htrue, rfl⟩)⟩
    have hvar : ∀ f : String, f ∈ vf ↔
        (f ∈ fields ∧ constP rows f ≠ some true) := by
      intro f
      have hct := hcount f
      by_cases hP : constP rows f = some true
      · rw [hP] at hct
        simp only [if_true] at hct
        have hzero : vf.count f = 0 := by omega
        constructor
        · intro hmemf
          exact absurd (List.count_eq_zero.mp hzero) (by simp [hmemf])
        · rintro ⟨_, hne⟩
          exact absurd hP hne
      · rw [if_neg hP, Nat.sub_zero] at hct
        constructor
        · intro hmemf
          have : 0 < fields.count f := by
            have := List.count_pos_iff.mpr hmemf
            omega
          exact ⟨List.count_pos_iff.mp this, hP⟩
        · rintro ⟨hmemf, _⟩
          have : 0 < fields.count f := List.count_pos_iff.mpr hmemf
          exact List.count_pos_iff.mp (by omega)
    constructor
    · intro f
      rw [hkey f, hvar f]
      by_cases hP : constP rows f = some true <;> simp [hP]
    · intro f
      rw [hkey f, hvar f]
      tauto

/-- Witness for C5 at concrete input: with one constant field the union of
constant keys and variable fields is the original field list. -/
theorem get_constant_fields_partition_witness :
    ((∃ v, ("A", v) ∈ ([("A", PyVal.int 1)] : List (String × PyVal))) ∨
      "A" ∈ ([] : List String)) ↔ "A" ∈ ["A"] :=
  (get_constant_fields_partition [[("A", PyVal.int 1)]] ["A"]
    [("A", PyVal.int 1)] [] rfl).1 "A"

/-- C8 — Empty input (no rows or no fields) makes `get_constant_fields`
return an empty constant map and the original field list unchanged as the
variable list, without raising. -/
theorem get_constant_fields_empty_input (rows : List Row) (fields : List String)
    (h : rows = [] ∨ fields = []) :
    get_constant_fields rows fields = some ([], fields) := by
  have : (rows.isEmpty || fields.isEmpty) = true := by
    rcases h with rfl | rfl <;> simp
  simp [get_constant_fields, this]

/-- Witness for C8: no rows but a non-empty field list. -/
theorem get_constant_fields_empty_input_witness :
    get_constant_fields [] ["A", "B"] = some ([], ["A", "B"]) :=
  get_constant_fields_empty_input [] ["A", "B"] (Or.inl rfl)

mutual

/-- Structural equality on embedded values, modelling the hash-based cell
equality pandas `drop_duplicates` uses: unlike Python `==`, pandas treats a
top-level NaN cell as a duplicate of another NaN cell.  (CPython identity
effects on NaN nested inside tuples are not modelled; no claim depends on
which of two such rows survives deduplication.) -/
def pdEq : PyVal → PyVal → Bool
  | .none, .none => true
  | .nan, .nan => true
  | .inf a, .inf b => a == b
  | .int a, .int b => a == b
  | .str a, .str b => a == b
  | .bool a, .bool b => a == b
  | .list a, .list b => pdValsEq a b
  | .tuple a, .tuple b => pdValsEq a b
  | .set a, .set b => pdValsEq a b
  | .dict a, .dict b => pdKvsEq a b
  | _, _ => false

/-- Elementwise structural equality on value lists. -/
def pdValsEq : List PyVal → List PyVal → Bool
  | [], [] => true
  | a :: as_, b :: bs => pdEq a b && pdValsEq as_ bs
  | _, _ => false

/-- Pairwise structural equality on key/value lists. -/
def pdKvsEq : List (String × PyVal) → List (String × PyVal) → Bool
  | [], [] => true
  | (k, v) :: as_, (k2, v2) :: bs => k == k2 && pdEq v v2 && pdKvsEq as_ bs
  | _, _ => false

end

/-- Constructor rank, used to totalize the row-sort comparator across
types.  pandas `sort_values` on a mixed-type object column raises
`TypeError`; the claims proved below depend only on the sorted result
being a permutation, never on the relative order of mixed types. -/
def pyRank : PyVal → Nat
  | .none => 0
  | .bool _ => 1
  | .int _ => 2
  | .nan => 3
  | .inf _ => 4
  | .str _ => 5
  | .list _ => 6
  | .dict _ => 7
  | .set _ => 8
  | .tuple _ => 9

mutual

/-- Ascending comparator on embedded values for `sort_values`. -/
def pyLe : PyVal → PyVal → Bool
  | .int a, .int b => decide (a ≤ b)
  | .bool a, .bool b => !a || b
  | .str a, .str b => strLe a b
  | .inf a, .inf b => a == b || a
  | .tuple a, .tuple b => pyLeList a b
  | .list a, .list b => pyLeList a b
  | a, b => decide (pyRank a ≤ pyRank b)

/-- Lexicographic comparator on value lists. -/
def pyLeList : List PyVal → List PyVal → Bool
  | [], _ => true
  | _ :: _, [] => false
  | a :: as_, b :: bs => if pdEq a b then pyLeList as_ bs else pyLe a b

end

/-- Python whitespace (the set stripped by `str.strip()`). -/
def isPyWs (c : Char) : Bool :=
  c = ' ' || c = '\t' || c = '\n' || c = '\r' || c = '\x0b' || c = '\x0c'

/-- Embedding of `str.strip()` / pandas `.str.strip()`. -/
def pyStrip (s : String) : String :=
  String.mk ((((s.toList.dropWhile isPyWs).reverse).dropWhile isPyWs).reverse)

/-- A pandas DataFrame: the column universe plus the list of rows (the
spec's Metadata Table invariant keeps every column present in every row). -/
structure DFrame where
  cols : List String
  rows : List Row

/-- The boolean mask `df["ProtocolName"] == acquisition` for one row:
elementwise Python `==` against the acquisition name. -/
def inAcq (acquisition : String) (r : Row) : Bool :=
  pyEq (rowGet r "ProtocolName") (.str acquisition)

/-- Projection `df[selected_fields]` followed by the column rename
`df_selected.columns = df_selected.columns.str.strip()`: cells are looked
up under the caller's names, the projected columns carry stripped names. -/
def projectRow (sel : List String) (r : Row) : Row :=
  sel.map (fun f => (pyStrip f, rowGet r f))

/-- The per-column loop `df_selected[col] = df_selected[col].apply(make_hashable)`
restricted to one row; `Option.none` when `make_hashable` raises on a cell. -/
def normalizeRow : Row → Option Row
  | [] => some []
  | (k, v) :: rest =>
    (make_hashable v).bind (fun w =>
      (normalizeRow rest).map (fun ws => (k, w) :: ws))

/-- Cell normalization over all rows. -/
def normalizeRows : List Row → Option (List Row)
  | [] => some []
  | r :: rs =>
    (normalizeRow r).bind (fun r' =>
      (normalizeRows rs).map (fun rs' => r' :: rs'))

/-- The sort key of a row under `sort_values(by=selected_fields)`. -/
def rowKey (sel : List String) (r : Row) : List PyVal := sel.map (rowGet r)

/-- Row comparator: lexicographic over the selected fields' cell values. -/
def rowLe (sel : List String) (r1 r2 : Row) : Bool :=
  pyLeList (rowKey sel r1) (rowKey sel r2)

/-- pandas `drop_duplicates(subset=sel)` with the default `keep="first"`:
keep a row iff its key was not seen earlier. -/
def dedupByKey (sel : List String) (seen : List (List PyVal)) : List Row → List Row
  | [] => []
  | r :: rs =>
    if seen.any (fun k => pdValsEq k (rowKey sel r)) then dedupByKey sel seen rs
    else r :: dedupByKey sel (rowKey sel r :: seen) rs

/-- Embedding of `fetch_unique_rows` (generate_template.py lines 26-45):
empty selection short-circuits to `[]`; any selected field missing from
the columns raises `ValueError`; otherwise rows of the acquisition are
projected, cell-normalized with `make_hashable`, deduplicated and sorted.
A selected field whose stripped name differs from itself makes
`drop_duplicates(subset=selected_fields)` raise `KeyError` after the
rename; when the subset check passes the `set(...).intersection` guard is
non-empty, so the sort always runs. -/
def fetch_unique_rows (df : DFrame) (acquisition : String)
    (selected_fields : List String) : Option (List Row) :=
  if selected_fields.isEmpty then some []
  else if selected_fields.any (fun f => decide (f ∉ df.cols)) then Option.none
  else
    (normalizeRows
        ((df.rows.filter (inAcq acquisition)).map (projectRow selected_fields))).bind
      (fun nrows =>
        if selected_fields.all (fun f => decide (f ∈ selected_fields.map pyStrip)) then
          some (sortBy (rowLe selected_fields) (dedupByKey selected_fields [] nrows))
        else Option.none)

/-- C6 — requesting a field subset with no overlap with the table's
columns is rejected with an explicit error, while requesting an empty
field subset yields an empty result without error. -/
theorem fetch_unique_rows_field_subset (df : DFrame) (acquisition : String)
    (sel : List String) :
    fetch_unique_rows df acquisition [] = some [] ∧
    (sel ≠ [] → (∀ f ∈ sel, f ∉ df.cols) →
      fetch_unique_rows df acquisition sel = Option.none) := by
  constructor
  · rfl
  · intro hne hdisj
    have hisEmpty : sel.isEmpty = false := by
      cases sel with
      | nil => exact absurd rfl hne
      | cons _ _ => rfl
    have hany : sel.any (fun f => decide (f ∉ df.cols)) = true := by
      cases sel with
      | nil => exact absurd rfl hne
      | cons f fs =>
        exact List.any_eq_true.mpr ⟨f, by simp, by
          simp only [decide_eq_true_eq]
          exact hdisj f (by simp)⟩
    simp only [fetch_unique_rows]
    rw [if_neg (by rw [hisEmpty]; exact Bool.false_ne_true), if_pos hany]

/-- Witness for C6: a table whose only column is "ProtocolName"; selecting
a disjoint subset errors, selecting nothing returns the empty result. -/
theorem fetch_unique_rows_field_subset_witness :
    fetch_unique_rows ⟨["ProtocolName"], []⟩ "acq" [] = some [] ∧
    fetch_unique_rows ⟨["ProtocolName"], []⟩ "acq" ["EchoTime"] = Option.none :=
  ⟨(fetch_unique_rows_field_subset ⟨["ProtocolName"], []⟩ "acq" ["EchoTime"]).1,
   (fetch_unique_rows_field_subset ⟨["ProtocolName"], []⟩ "acq" ["EchoTime"]).2
     (by simp) (by decide)⟩

theorem normalizeRows_mem (l : List Row) (l' : List Row)
    (h : normalizeRows l = some l') :
    ∀ y ∈ l', ∃ x ∈ l, normalizeRow x = some y := by
  induction l generalizing l' with
  | nil =>
    simp only [normalizeRows, Option.some.injEq] at h
    subst h
    intro y hy; cases hy
  | cons r rs ih =>
    simp only [normalizeRows] at h
    rcases hr : normalizeRow r with _ | r'
    · rw [hr, Option.none_bind] at h; cases h
    · rw [hr, Option.some_bind] at h
      rcases hrs : normalizeRows rs with _ | rs'
      · rw [hrs, Option.map_none'] at h; cases h
      · rw [hrs, Option.map_some'] at h
        simp only [Option.some.injEq] at h
        subst h
        intro y hy
        rcases List.mem_cons.mp hy with rfl | hy
        · exact ⟨r, List.mem_cons_self r rs, hr⟩
        · obtain ⟨x, hx, hnx⟩ := ih rs' hrs y hy
          exact ⟨x, List.mem_cons_of_mem r hx, hnx⟩

theorem dedupByKey_subset (sel : List String) :
    ∀ (l : List Row) (seen : List (List PyVal)) (r : Row),
      r ∈ dedupByKey sel seen l → r ∈ l := by
  intro l
  induction l with
  | nil => intro seen r h; cases h
  | cons x xs ih =>
    intro seen r h
    simp only [dedupByKey] at h
    by_cases hseen : (seen.any (fun k => pdValsEq k (rowKey sel x))) = true
    · rw [if_pos hseen] at h
      exact List.mem_cons_of_mem x (ih seen r h)
    · rw [if_neg hseen] at h
      rcases List.mem_cons.mp h with rfl | h'
      · exact List.mem_cons_self _ _
      · exact List.mem_cons_of_mem x (ih _ r h')

theorem normalizeRow_cells (x y : Row) (h : normalizeRow x = some y) :
    ∀ kv ∈ y, ∃ raw, make_hashable raw = some kv.2 := by
  induction x generalizing y with
  | nil =>
    simp only [normalizeRow, Option.some.injEq] at h
    subst h
    intro kv hkv; cases hkv
  | cons p rest ih =>
    obtain ⟨k, v⟩ := p
    simp only [normalizeRow] at h
    rcases hv : make_hashable v with _ | w
    · rw [hv, Option.none_bind] at h; cases h
    · rw [hv, Option.some_bind] at h
      rcases hrest : normalizeRow rest with _ | ws
      · rw [hrest, Option.map_none'] at h; cases h
      · rw [hrest, Option.map_some'] at h
        simp only [Option.some.injEq] at h
        subst h
        intro kv hkv
        rcases List.mem_cons.mp hkv with rfl | hkv
        · exact ⟨v, hv⟩
        · exact ih ws hrest kv hkv

/-- C10 — every row returned by `fetch_unique_rows` is the cell-normalized
projection of a matching input row: its cell values are `make_hashable`
outputs (canonical sorted-key JSON strings for lists and mappings, tuples
of normalized elements for sets and tuples), not the original raw values;
the normalization applied for duplicate detection is not undone. -/
theorem fetch_unique_rows_returns_normalized (df : DFrame) (acquisition : String)
    (sel : List String) (out : List Row) (r : Row)
    (h : fetch_unique_rows df acquisition sel = some out) (hr : r ∈ out) :
    (∃ src ∈ df.rows, inAcq acquisition src = true ∧
      normalizeRow (projectRow sel src) = some r) ∧
    ∀ kv ∈ r, ∃ raw, make_hashable raw = some kv.2 := by
  simp only [fetch_unique_rows] at h
  by_cases hemp : sel.isEmpty = true
  · rw [if_pos hemp] at h
    simp only [Option.some.injEq] at h
    subst h
    cases hr
  · rw [if_neg hemp] at h
    by_cases hany : (sel.any (fun f => decide (f ∉ df.cols))) = true
    · rw [if_pos hany] at h; cases h
    · rw [if_neg hany] at h
      rcases hnr : normalizeRows
          ((df.rows.filter (inAcq acquisition)).map (projectRow sel)) with _ | nrows
      · rw [hnr, Option.none_bind] at h; cases h
      · rw [hnr, Option.some_bind] at h
        by_cases hstr : (sel.all (fun f => decide (f ∈ sel.map pyStrip))) = true
        · rw [if_pos hstr] at h
          simp only [Option.some.injEq] at h
          subst h
          have hr1 : r ∈ dedupByKey sel [] nrows := mem_sortBy.mp hr
          have hr2 : r ∈ nrows := dedupByKey_subset sel nrows [] r hr1
          obtain ⟨x, hx, hnx⟩ := normalizeRows_mem _ nrows hnr r hr2
          obtain ⟨src, hsrc, hproj⟩ := List.mem_map.mp hx
          have hfilter := List.mem_filter.mp hsrc
          refine ⟨⟨src, hfilter.1, hfilter.2, by rw [hproj]; exact hnx⟩, ?_⟩
          exact normalizeRow_cells x r hnx
        · rw [if_neg hstr] at h; cases h

/-- A one-row table whose "A" column holds a Python list, for the C10
witness: the returned cell is the canonical JSON string of that list. -/
def sampleDF : DFrame :=
  ⟨["ProtocolName", "A"],
   [[("ProtocolName", PyVal.str "acq"), ("A", PyVal.list [PyVal.int 1])]]⟩

/-- Witness for C10: the list-valued cell comes back as its canonical JSON
string `"[1]"`, i.e. as the `make_hashable` image of the raw value. -/
theorem fetch_unique_rows_returns_normalized_witness :
    (∃ src ∈ sampleDF.rows, inAcq "acq" src = true ∧
      normalizeRow (projectRow ["A"] src) = some [("A", PyVal.str "[1]")]) ∧
    ∀ kv ∈ [("A", PyVal.str "[1]")], ∃ raw, make_hashable raw = some kv.2 :=
  fetch_unique_rows_returns_normalized sampleDF "acq" ["A"]
    [[("A", PyVal.str "[1]")]] [("A", PyVal.str "[1]")] rfl
    (List.mem_singleton.mpr rfl)

/-- The fixed separator "::" of the session-map serialization
(mapping_output.py line 40) and parsing (compliance_output.py line 6). -/
def sepCC : List Char := [':', ':']

/-- Embedding of Python `s.split("::")` on character lists: scan left to
right, splitting at each leftmost occurrence of the separator. -/
def pySplit : List Char → List (List Char)
  | [] => [[]]
  | [c] => [[c]]
  | c1 :: c2 :: rest =>
    if decide (c1 = ':') && decide (c2 = ':') then [] :: pySplit rest
    else
      match pySplit (c2 :: rest) with
      | t :: ts => (c1 :: t) :: ts
      | [] => [[c1]]

theorem pySplit_sep_cons (rest : List Char) :
    pySplit (':' :: ':' :: rest) = [] :: pySplit rest := by
  simp [pySplit]

theorem pySplit_cons_ne (c1 c2 : Char) (rest t : List Char) (ts : List (List Char))
    (h : (decide (c1 = ':') && decide (c2 = ':')) = false)
    (hps : pySplit (c2 :: rest) = t :: ts) :
    pySplit (c1 :: c2 :: rest) = (c1 :: t) :: ts := by
  simp only [pySplit, h, Bool.false_eq_true, if_false, hps]

/-- Serialization of one two-part key, `f"{key[0]}::{key[1]}"`. -/
def joinKey (a b : List Char) : List Char := a ++ sepCC ++ b

/-- One session-map entry: (input acq, input series) paired with
(reference acq, reference series). -/
abbrev MapEntry := (List Char × List Char) × (List Char × List Char)

/-- Embedding of `session_map_serializable` (mapping_output.py lines 39-42): join both
sides of every entry with "::". -/
def serializeMap (m : List MapEntry) : List (List Char × List Char) :=
  m.map (fun e => (joinKey e.1.1 e.1.2, joinKey e.2.1 e.2.2))

/-- Embedding of `series_map` (compliance_output.py lines 5-8): parse each side back by
splitting on "::"; Python builds a tuple of however many parts the split
yields, embedded here as the list of parts. -/
def parseMap (m : List (List Char × List Char)) :
    List (List (List Char) × List (List Char)) :=
  m.map (fun kv => (pySplit kv.1, pySplit kv.2))

theorem not_both_colon {c1 c2 : Char} (rest : List Char)
    (h : ¬ sepCC <:+: (c1 :: c2 :: rest)) :
    (decide (c1 = ':') && decide (c2 = ':')) = false := by
  rcases hb : (decide (c1 = ':') && decide (c2 = ':')) with _ | _
  · rfl
  · exfalso
    obtain ⟨h1, h2⟩ := Bool.and_eq_true .. ▸ hb
    have hc1 : c1 = ':' := of_decide_eq_true h1
    have hc2 : c2 = ':' := of_decide_eq_true h2
    subst hc1; subst hc2
    exact h ⟨[], rest, rfl⟩

theorem pySplit_no_sep : ∀ s : List Char, ¬ sepCC <:+: s → pySplit s = [s]
  | [], _ => by simp [pySplit]
  | [c], _ => by simp [pySplit]
  | c1 :: c2 :: rest, h => by
    have hrest : ¬ sepCC <:+: (c2 :: rest) := fun hinf => h (List.infix_cons hinf)
    have hrec := pySplit_no_sep (c2 :: rest) hrest
    exact pySplit_cons_ne c1 c2 rest (c2 :: rest) [] (not_both_colon rest h) hrec

theorem pySplit_append : ∀ (a b : List Char), ¬ sepCC <:+: (a ++ [':']) →
    pySplit (a ++ sepCC ++ b) = a :: pySplit b
  | [], b, _ => pySplit_sep_cons b
  | [c], b, h => by
    have hcond : (decide (c = ':') && decide ((':' : Char) = ':')) = false := by
      rcases hb : decide (c = ':') with _ | _
      · rfl
      · exfalso
        have hc : c = ':' := of_decide_eq_true hb
        subst hc
        exact h ⟨[], [], rfl⟩
    exact pySplit_cons_ne c ':' (':' :: b) [] (pySplit b) hcond (pySplit_sep_cons b)
  | c1 :: c2 :: a', b, h => by
    have hseptop : ¬ sepCC <:+: (c1 :: c2 :: (a' ++ [':'])) := h
    have htail : ¬ sepCC <:+: ((c2 :: a') ++ [':']) := fun hinf =>
      hseptop (List.infix_cons hinf)
    have hrec := pySplit_append (c2 :: a') b htail
    have hshape2 : (c2 :: a') ++ sepCC ++ b = c2 :: (a' ++ sepCC ++ b) := rfl
    rw [hshape2] at hrec
    exact pySplit_cons_ne c1 c2 (a' ++ sepCC ++ b) (c2 :: a') (pySplit b)
      (not_both_colon (a' ++ [':']) hseptop) hrec

theorem pySplit_joinKey (a b : List Char) (ha : ¬ sepCC <:+: (a ++ [':']))
    (hb : ¬ sepCC <:+: b) : pySplit (joinKey a b) = [a, b] := by
  rw [joinKey, pySplit_append a b ha, pySplit_no_sep b hb]

/-- C3 counterexample — an acquisition name that itself contains the
separator "::" breaks the round trip: joining and re-splitting yields
three parts, not the original two-part key. -/
theorem session_map_roundtrip_counterexample :
    parseMap (serializeMap
      [(("a::b".toList, "Series 1".toList), ("ref".toList, "Series 1".toList))]) ≠
    [(["a::b".toList, "Series 1".toList], ["ref".toList, "Series 1".toList])] := by
  decide

/-- C3 (amended) — serializing a session map with "::" and re-splitting
reconstructs every key pair exactly, provided no key component contains
"::" and the acquisition components do not end in ':' (otherwise the
separator scan fires early, as the counterexample shows). -/
theorem session_map_roundtrip (m : List MapEntry)
    (h : ∀ e ∈ m, ¬ sepCC <:+: (e.1.1 ++ [':']) ∧ ¬ sepCC <:+: e.1.2 ∧
      ¬ sepCC <:+: (e.2.1 ++ [':']) ∧ ¬ sepCC <:+: e.2.2) :
    parseMap (serializeMap m) =
      m.map (fun e => ([e.1.1, e.1.2], [e.2.1, e.2.2])) := by
  induction m with
  | nil => rfl
  | cons e m' ih =>
    obtain ⟨h1, h2, h3, h4⟩ := h e (List.mem_cons_self e m')
    have ih' := ih (fun e' he' => h e' (List.mem_cons_of_mem e he'))
    simp only [serializeMap, parseMap, List.map_cons] at ih' ⊢
    rw [pySplit_joinKey e.1.1 e.1.2 h1 h2, pySplit_joinKey e.2.1 e.2.2 h3 h4]
    rw [ih']

/-- Witness for C3: a one-entry session map with separator-free components
round-trips exactly. -/
theorem session_map_roundtrip_witness :
    parseMap (serializeMap
      [(("acq1".toList, "Series 1".toList), ("ref1".toList, "Series 2".toList))]) =
    [(["acq1".toList, "Series 1".toList], ["ref1".toList, "Series 2".toList])] :=
  session_map_roundtrip
    [(("acq1".toList, "Series 1".toList), ("ref1".toList, "Series 2".toList))]
    (by decide)

/-- The distinct reference-field value combinations of one acquisition, in
the order pandas `groupby` with the default `sort=True` enumerates its
groups: ascending order of the group key.  A row's combination of
reference-field values is represented by one `Int` key standing for the
value tuple; pandas orders tuples lexicographically, which is an arbitrary
linear order for the purposes of the claims. -/
def sortedDistinct (keys : List Int) : List Int :=
  sortBy (fun a b => decide (a ≤ b)) keys.dedup

/-- Embedding of `group.groupby(reference_fields, dropna=False).ngroup().add(1)`
(mapping_output.py lines 27-31), restricted to the rows of one
acquisition: a row's group number is the position of its combination
among the sorted distinct combinations, plus 1. -/
def ngroupAdd1 (keys : List Int) : List Nat :=
  keys.map (fun k => (sortedDistinct keys).indexOf k + 1)

/-- Application of the label formatter `.apply(lambda x: "Series %d" % x)`
(written as an f-string in the source) over the group numbers. -/
def seriesLabels (keys : List Int) : List String :=
  (ngroupAdd1 keys).map (fun n => "Series " ++ toString n)

/-- Distinct keys in order of first appearance (accumulator form).
Modelled from the spec's words, for comparison with the code's sorted
`ngroup` numbering. -/
def dfaAux (seen : List Int) : List Int → List Int
  | [] => []
  | k :: ks => if k ∈ seen then dfaAux seen ks else k :: dfaAux (k :: seen) ks

/-- Distinct keys in first-appearance order. -/
def distinctFirstAppearance (keys : List Int) : List Int := dfaAux [] keys

/-- The spec's claimed numbering: ordinal = position of the row's
combination in first-appearance order, plus 1. -/
def ngroupFirstAppearance (keys : List Int) : List Nat :=
  keys.map (fun k => (distinctFirstAppearance keys).indexOf k + 1)

/-- The series labels the spec's first-appearance rule would produce. -/
def seriesLabelsFirstAppearance (keys : List Int) : List String :=
  (ngroupFirstAppearance keys).map (fun n => "Series " ++ toString n)

/-- C1 counterexample — for reference-field values [2, 1, 2] in row order,
the code's `ngroup` numbering (sorted group keys) yields
["Series 2", "Series 1", "Series 2"], not the first-appearance labels
["Series 1", "Series 2", "Series 1"] the claim asserts. -/
theorem series_ngroup_not_first_appearance :
    seriesLabels [2, 1, 2] = ["Series 2", "Series 1", "Series 2"] ∧
    seriesLabelsFirstAppearance [2, 1, 2] = ["Series 1", "Series 2", "Series 1"] ∧
    seriesLabels [2, 1, 2] ≠ seriesLabelsFirstAppearance [2, 1, 2] := by
  refine ⟨rfl, rfl, ?_⟩
  decide

theorem indexOf_sorted_lt (l : List Int) (hs : l.Pairwise (· < ·)) :
    ∀ k ∈ l, l.indexOf k = (l.filter (fun x => decide (x < k))).length := by
  induction l with
  | nil => intro k hk; cases hk
  | cons a t ih =>
    rcases hs with _ | ⟨ha, ht⟩
    intro k hk
    by_cases hka : k = a
    · have haek : (a == k) = true := by rw [hka]; simp
      have h0 : (a :: t).indexOf k = 0 := by
        rw [List.indexOf_cons, haek]
        rfl
      have hfilter : (a :: t).filter (fun x => decide (x < k)) = [] := by
        rw [List.filter_eq_nil_iff]
        intro z hz
        rcases List.mem_cons.mp hz with rfl | hz
        · simp [hka]
        · simp only [decide_eq_true_eq]
          rw [hka]
          exact lt_asymm (ha z hz)
      rw [h0, hfilter]
      rfl
    · have hkt : k ∈ t := by
        rcases List.mem_cons.mp hk with rfl | h'
        · exact absurd rfl hka
        · exact h'
      have hak : a < k := ha k hkt
      have hidx : (a :: t).indexOf k = t.indexOf k + 1 := by
        rw [List.indexOf_cons]
        have : (a == k) = false := by
          simp only [beq_eq_false_iff_ne]
          exact fun hcontra => hka hcontra.symm
        rw [this]
        rfl
      have hfil : (a :: t).filter (fun x => decide (x < k)) =
          a :: t.filter (fun x => decide (x < k)) := by
        rw [List.filter_cons_of_pos]
        simpa using hak
      rw [hidx, hfil, List.length_cons, ih ht k hkt]

theorem sortedDistinct_pairwise_lt (keys : List Int) :
    (sortedDistinct keys).Pairwise (· < ·) := by
  have htot : ∀ x y : Int, (decide (x ≤ y)) = true ∨ (decide (y ≤ x)) = true := by
    intro x y
    rcases le_total x y with h | h
    · exact Or.inl (decide_eq_true h)
    · exact Or.inr (decide_eq_true h)
  have htrans : ∀ x y z : Int, (decide (x ≤ y)) = true → (decide (y ≤ z)) = true →
      (decide (x ≤ z)) = true := by
    intro x y z h1 h2
    exact decide_eq_true (le_trans (of_decide_eq_true h1) (of_decide_eq_true h2))
  have hle := sortBy_sorted htot htrans keys.dedup
  have hnd : (sortedDistinct keys).Nodup :=
    ((sortBy_perm (fun a b => decide (a ≤ b)) keys.dedup).nodup_iff).mpr
      (List.nodup_dedup keys)
  have hcomb := hle.and hnd
  refine hcomb.imp ?_
  rintro a b ⟨h1, h2⟩
  exact lt_of_le_of_ne (of_decide_eq_true h1) h2

/-- C1 (amended) — series ordinals within an acquisition follow the
ascending sorted order of the distinct reference-field combinations
(pandas `groupby(...).ngroup()` with the default `sort=True`), not
first-appearance order: each row's label is "Series n" with n = 1 plus the
number of distinct combinations strictly smaller than the row's own.  The
claim's concrete instance [1, 2, 1] still yields
["Series 1", "Series 2", "Series 1"] because there sorted order and
first-appearance order coincide. -/
theorem series_labels_sorted_order :
    (∀ keys : List Int, seriesLabels keys = keys.map (fun k =>
      "Series " ++ toString ((keys.dedup.filter (fun x => decide (x < k))).length + 1))) ∧
    seriesLabels [1, 2, 1] = ["Series 1", "Series 2", "Series 1"] := by
  constructor
  · intro keys
    simp only [seriesLabels, ngroupAdd1, List.map_map]
    apply List.map_congr_left
    intro k hk
    simp only [Function.comp_apply]
    have hmem : k ∈ sortedDistinct keys := by
      simp only [sortedDistinct]
      rw [mem_sortBy, List.mem_dedup]
      exact hk
    have hidx := indexOf_sorted_lt (sortedDistinct keys)
      (sortedDistinct_pairwise_lt keys) k hmem
    have hlen : ((sortedDistinct keys).filter (fun x => decide (x < k))).length =
        ((keys.dedup).filter (fun x => decide (x < k))).length :=
      ((sortBy_perm (fun a b => decide (a ≤ b)) keys.dedup).filter _).length_eq
    rw [hidx, hlen]
  · rfl

/-- The assembled mapping payload (mapping_output.py lines 45-56): the
final `json.dumps` carries the full reference acquisition names, the full
input acquisition list and the session map, so a caller can see the count
imbalance directly. -/
structure MappingReport where
  reference_acquisitions : List String
  input_acquisitions : List String
  session_map : List (String × String)

/-- Module-reference ("Python reference") branch of mapping_output.py:
`ref_session["acquisitions"]` is a dict keyed by the reference module
names, and the session map is the dict comprehension over
`zip(input_acquisitions, ref_session["acquisitions"])`, which pairs
positionally and stops at the shorter list. -/
def moduleModeReport (inputAcqs refAcqs : List String) : MappingReport :=
  ⟨refAcqs, inputAcqs, inputAcqs.zip refAcqs⟩

theorem zip_getElem_some {α β : Type} (l1 : List α) (l2 : List β) :
    ∀ (i : Nat) (a : α) (b : β),
      (l1.zip l2)[i]? = some (a, b) ↔ (l1[i]? = some a ∧ l2[i]? = some b) := by
  induction l1 generalizing l2 with
  | nil => intro i a b; simp [List.zip]
  | cons x xs ih =>
    intro i a b
    cases l2 with
    | nil => simp [List.zip]
    | cons y ys =>
      cases i with
      | zero =>
        simp only [List.zip_cons_cons, List.getElem?_cons_zero, Option.some.injEq,
          Prod.mk.injEq]
      | succ n =>
        simp only [List.zip_cons_cons, List.getElem?_cons_succ]
        exact ih ys n a b

theorem zip_map_fst {α β : Type} :
    ∀ (l1 : List α) (l2 : List β), (l1.zip l2).map Prod.fst = l1.take l2.length := by
  intro l1
  induction l1 with
  | nil => intro l2; simp
  | cons x xs ih =>
    intro l2
    cases l2 with
    | nil => simp
    | cons y ys =>
      simp only [List.zip_cons_cons, List.map_cons, List.length_cons, List.take_succ_cons]
      rw [ih ys]

/-- C7 — in module-reference mode the session map pairs input acquisitions
with reference acquisitions positionally up to the length of the shorter
list; acquisitions beyond that length appear in no map entry; and the
report hands the caller the complete input and reference lists, from which
the count imbalance is visible. -/
theorem module_reference_positional_mapping (inputs refs : List String)
    (hnd : inputs.Nodup) :
    (moduleModeReport inputs refs).session_map.length = min inputs.length refs.length ∧
    (∀ (i : Nat) (a r : String),
      (moduleModeReport inputs refs).session_map[i]? = some (a, r) ↔
        (inputs[i]? = some a ∧ refs[i]? = some r)) ∧
    (∀ a ∈ inputs.drop (min inputs.length refs.length),
      ∀ p ∈ (moduleModeReport inputs refs).session_map, p.1 ≠ a) ∧
    (moduleModeReport inputs refs).input_acquisitions = inputs ∧
    (moduleModeReport inputs refs).reference_acquisitions = refs := by
  refine ⟨List.length_zip inputs refs, zip_getElem_some inputs refs, ?_, rfl, rfl⟩
  intro a ha p hp hpa
  have h1 : p.1 ∈ (inputs.zip refs).map Prod.fst := List.mem_map_of_mem Prod.fst hp
  rw [zip_map_fst inputs refs] at h1
  rcases Nat.le_total refs.length inputs.length with hle | hle
  · have hmin : min inputs.length refs.length = refs.length := by omega
    rw [hmin] at ha
    have hsplit := List.take_append_drop refs.length inputs
    have hnd' : (inputs.take refs.length ++ inputs.drop refs.length).Nodup := by
      rw [hsplit]; exact hnd
    have hdisj := (List.nodup_append.mp hnd').2.2
    exact hdisj (hpa ▸ h1) ha
  · have hmin : min inputs.length refs.length = inputs.length := by omega
    rw [hmin, List.drop_length] at ha
    cases ha

/-- Witness for C7: two input acquisitions against one reference module;
the map has one entry and the report still lists both inputs. -/
theorem module_reference_positional_mapping_witness :
    (moduleModeReport ["a", "b"] ["r"]).session_map.length = min 2 1 ∧
    (moduleModeReport ["a", "b"] ["r"]).input_acquisitions = ["a", "b"] :=
  ⟨(module_reference_positional_mapping ["a", "b"] ["r"] (by decide)).1,
   (module_reference_positional_mapping ["a", "b"] ["r"] (by decide)).2.2.2.1⟩

example : make_hashable (.list [.int 1, .int 2]) = some (.str "[1, 2]") := rfl
example : make_hashable (.dict [("b", .int 2), ("a", .int 1)]) =
    some (.str "\x7b\"a\": 1, \"b\": 2\x7d") := rfl
example : make_hashable (.set [.list [.int 1]]) = some (.tuple [.str "[1]"]) := rfl
example : make_hashable (.list [.set [.int 1]]) = Option.none := rfl
example : make_hashable .nan = some .nan := rfl
example : pyEq (.tuple [.int 1]) (.tuple [.int 1]) = true := rfl
example : pyEq .nan .nan = false := rfl
example : clean_for_json (.list [.nan, .inf false, .int 3]) =
    .list [.none, .none, .int 3] := rfl
